import Mathlib

/-!
Verification of the foxEPUB speed-reading converter (`src/app.py`).

The development shallowly embeds the program's pure core in Lean:

* words and text runs are `List Char` (Python `str` is a sequence of codepoints);
* the Russian syllable splitter `split_russian_syllables`, the two segmenters
  `first_syllable_parts` and `bionic_parts`, and the token scanner behind
  `build_nodes_for_text` are translated function by function from the source;
* the HTML tree that BeautifulSoup produces is modelled by the inductive
  `HNode` (element name, `id` attribute, multi-valued `class` attribute,
  children) together with `HDoc` holding the optional `head` and `body`
  subtrees, and the tree passes of `process_html_bytes` are translated over it;
* the zip container of `process_epub` is modelled as its entry list, each entry
  a `ZipInfo` record of exactly the metadata fields the source copies plus the
  payload bytes; the parsing done by the external `zipfile` library is
  represented by its outcome (`Except`).

Python's `str.lower` is modelled on the alphabets the program actually feeds
it (Russian letters and ASCII); all functions are executable.
-/

/-! ## Character classes (src/app.py lines 13-26) -/

def VOWELS : List Char := "аеёиоуыэюяАЕЁИОУЫЭЮЯ".toList

def CONSONANTS : List Char := "бвгджзйклмнпрстфхцчшщьъБВГДЖЗЙКЛМНПРСТФХЦЧШЩЬЪ".toList

def ALLOWED_ONSET_2 : List (List Char) :=
  ["бл".toList, "бр".toList, "вл".toList, "вр".toList, "гл".toList, "гр".toList,
   "дл".toList, "др".toList, "жр".toList, "зл".toList, "зр".toList,
   "кл".toList, "кр".toList, "пл".toList, "пр".toList, "сл".toList, "см".toList,
   "сн".toList, "сп".toList, "ст".toList, "ск".toList, "ср".toList,
   "сф".toList, "сх".toList, "св".toList, "шл".toList, "шр".toList, "тл".toList,
   "тр".toList, "фл".toList, "фр".toList, "хл".toList, "хр".toList,
   "чр".toList, "вт".toList, "гн".toList, "мн".toList, "мл".toList, "мр".toList,
   "нл".toList, "нр".toList]

def ALLOWED_ONSET_3 : List (List Char) :=
  ["стр".toList, "скр".toList, "спр".toList, "скл".toList, "встр".toList, "всп".toList]

def is_vowel (c : Char) : Bool := VOWELS.contains c

def is_consonant (c : Char) : Bool := CONSONANTS.contains c

/-- Python `str.lower`, restricted to the alphabets the program feeds it:
Russian letters (А-Я maps to а-я, Ё to ё) and ASCII A-Z; every other
character is left unchanged. -/
def lowerChar (c : Char) : Char :=
  if c = 'Ё' then 'ё'
  else if 'А' ≤ c ∧ c ≤ 'Я' then Char.ofNat (c.toNat + 32)
  else if 'A' ≤ c ∧ c ≤ 'Z' then Char.ofNat (c.toNat + 32)
  else c

def str_lower (s : List Char) : List Char := s.map lowerChar

/-! ## Syllable splitting (src/app.py lines 37-75) -/

/-- Python `lower_cluster.endswith(("ь", "ъ"))`. -/
def ends_soft_or_hard (l : List Char) : Bool :=
  match l.getLast? with
  | some c => c == 'ь' || c == 'ъ'
  | none => false

/-- The onset length computed from a non-empty consonant cluster
(src/app.py lines 56-66).  `lower_cluster[-3:]` and `lower_cluster[-2:]`
are the last three / last two characters, reached only under the
corresponding length guards, exactly as in the source. -/
def cluster_onset_len (cluster : List Char) : Nat :=
  let lower_cluster := cluster.map lowerChar
  if 2 ≤ cluster.length ∧ lower_cluster.getD 0 ' ' = lower_cluster.getD 1 ' ' then
    cluster.length - 1
  else if ends_soft_or_hard lower_cluster then 1
  else if 3 ≤ lower_cluster.length ∧
      ALLOWED_ONSET_3.contains (lower_cluster.drop (lower_cluster.length - 3)) then 3
  else if 2 ≤ lower_cluster.length ∧
      ALLOWED_ONSET_2.contains (lower_cluster.drop (lower_cluster.length - 2)) then 2
  else 1

/-- The loop of `split_russian_syllables` (src/app.py lines 42-73), recursing
over the remaining vowel positions; `start` is the running start index.
Python's `word[a:b]` slice is `(word.take b).drop a`. -/
def split_syllables_loop (word : List Char) (start : Nat) : List Nat → List (List Char)
  | [] => []
  | [_] => [word.drop start]
  | vpos :: next_vpos :: rest =>
    let cluster := (word.take next_vpos).drop (vpos + 1)
    let boundary0 := if cluster = [] then next_vpos else next_vpos - cluster_onset_len cluster
    let boundary := if boundary0 ≤ start then next_vpos else boundary0
    (word.take boundary).drop start :: split_syllables_loop word boundary (next_vpos :: rest)

/-- Python `[i for i, ch in enumerate(word) if _is_vowel(ch)]`. -/
def vowel_positions (word : List Char) : List Nat :=
  (word.enum.filter (fun p => is_vowel p.2)).map (fun p => p.1)

/-- `split_russian_syllables` (src/app.py lines 37-75). -/
def split_russian_syllables (word : List Char) : List (List Char) :=
  let vps := vowel_positions word
  if vps.length ≤ 1 then [word]
  else split_syllables_loop word 0 vps

/-! ## The two segmenters (src/app.py lines 78-100) -/

/-- `first_syllable_parts` (src/app.py lines 78-85).  The `lru_cache` memo is
read/write-through transparent and is dropped from the model. -/
def first_syllable_parts (word : List Char) : List Char × List Char :=
  let syllables := split_russian_syllables word
  match syllables with
  | [] => (word, [])
  | first :: _ => (first, word.drop first.length)

/-- `bionic_parts` (src/app.py lines 87-100). -/
def bionic_parts (word : List Char) : List Char × List Char :=
  let length := word.length
  let n :=
    if length ≤ 3 then length
    else if length ≤ 5 then 2
    else if length ≤ 7 then 2
    else if length ≤ 10 then 3
    else max 3 (length / 3)
  (word.take n, word.drop n)

/-! ## Tokenization (src/app.py lines 24-26) and the word annotator
(src/app.py lines 102-137)

`TOKEN_RE = [А-Яа-яЁё]+|[PUNCT]` matched with `finditer` scans the text left
to right and, at every position, either consumes a maximal run of Russian
letters (a word token), or one punctuation character (a punct token), or
leaves the character as inter-token plain text.  `findTokens` computes, in
one right-to-left structural pass, the list of matches — each paired with
the plain-text gap that precedes it — plus the plain-text trail after the
last match; consecutive word characters merge into one maximal word token,
reproducing the greedy `+`. -/

/-- One character of the `[А-Яа-яЁё]` class of `WORD_RE`/`TOKEN_RE`
(the codepoints of А-Я and а-я are contiguous). -/
def is_word_char (c : Char) : Bool :=
  ('А' ≤ c && c ≤ 'я') || c == 'Ё' || c == 'ё'

/-- The `PUNCT_CHARS` class (src/app.py line 25). -/
def PUNCT_CHARS : List Char :=
  [',', ';', ':', '!', '?', '(', ')', '[', ']', '\x7b', '\x7d',
   '«', '»', '“', '”', '"', '—', '–', '-']

def is_punct (c : Char) : Bool := PUNCT_CHARS.contains c

/-- A `TOKEN_RE` match: either a maximal word (the `WORD_RE.fullmatch` case
of `build_nodes_for_text`) or a single punctuation character. -/
inductive Tok where
  | word : List Char → Tok
  | punct : Char → Tok
deriving DecidableEq

def tokText : Tok → List Char
  | Tok.word s => s
  | Tok.punct c => [c]

/-- All `TOKEN_RE` matches in the text, each with its preceding inter-match
gap, together with the trailing text after the last match. -/
def findTokens : List Char → List (List Char × Tok) × List Char
  | [] => ([], [])
  | c :: rest =>
    let r := findTokens rest
    if is_word_char c then
      match r with
      | (([], Tok.word s) :: ms, trail) => (([], Tok.word (c :: s)) :: ms, trail)
      | (ms, trail) => (([], Tok.word [c]) :: ms, trail)
    else if is_punct c then
      (([], Tok.punct c) :: r.1, r.2)
    else
      match r with
      | ([], trail) => ([], c :: trail)
      | ((g, t) :: ms, trail) => ((c :: g, t) :: ms, trail)

/-- The rewrite nodes produced for one text run: a plain `NavigableString`,
a `<strong>` emphasis tag, or a `<span class="punct">` marker. -/
inductive RewriteNode where
  | nstring : List Char → RewriteNode
  | strong : List Char → RewriteNode
  | punctSpan : List Char → RewriteNode
deriving DecidableEq

def nodeText : RewriteNode → List Char
  | RewriteNode.nstring s => s
  | RewriteNode.strong s => s
  | RewriteNode.punctSpan s => s

def nodesText (ns : List RewriteNode) : List Char := (ns.map nodeText).flatten

/-- The nodes emitted for one token (src/app.py lines 112-130): a word is
segmented by the selected strategy — `bionic_parts` when the mode string is
"bionic", `first_syllable_parts` otherwise — into a `<strong>` head followed
by the remainder when both are non-empty; punctuation becomes a
`span.punct`. -/
def token_nodes (mode : List Char) : Tok → List RewriteNode
  | Tok.word token =>
    let parts :=
      if mode = "bionic".toList then bionic_parts token else first_syllable_parts token
    if parts.1 ≠ [] then
      RewriteNode.strong parts.1 ::
        (if parts.2 ≠ [] then [RewriteNode.nstring parts.2] else [])
    else [RewriteNode.nstring token]
  | Tok.punct c => [RewriteNode.punctSpan [c]]

/-- `build_nodes_for_text` (src/app.py lines 102-137).  The `soup` argument
of the source is only the tag factory and has no counterpart.  Returns
`none` exactly when `TOKEN_RE.search` finds no match. -/
def build_nodes_for_text (text mode : List Char) : Option (List RewriteNode) :=
  let r := findTokens text
  if r.1.isEmpty then none
  else
    some ((r.1.map (fun m =>
        (if m.1.isEmpty then [] else [RewriteNode.nstring m.1]) ++ token_nodes mode m.2)).flatten
      ++ (if r.2.isEmpty then [] else [RewriteNode.nstring r.2]))

def matchText (m : List Char × Tok) : List Char := m.1 ++ tokText m.2
/-! ## The HTML document model

BeautifulSoup's mutable tree is modelled by the nested inductive `HNode`:
an element carries its tag name, its `id` attribute, its multi-valued
`class` attribute (the only attributes the program reads or writes) and its
children.  A parsed document (`HDoc`) is the optional child list of its
`head` element and the optional child list of its `body` element;
`soup.head` / `soup.body` being `None` is the `none` case.  All tree passes
of `process_html_bytes` (src/app.py lines 151-198) are translated below
over this model; parsing and serialization of the surrounding bytes is the
identity on the modelled content. -/

inductive HNode where
  | text : List Char → HNode
  | elem : (name : List Char) → (idAttr : Option (List Char)) →
      (classes : List (List Char)) → (children : List HNode) → HNode

structure HDoc where
  head : Option (List HNode)
  body : Option (List HNode)

def pTag : List Char := "p".toList
def scriptTag : List Char := "script".toList
def styleTag : List Char := "style".toList
def strongTag : List Char := "strong".toList
def spanTag : List Char := "span".toList
def srGapClass : List Char := "sr-gap".toList
def punctClass : List Char := "punct".toList
def speedreadStyleId : List Char := "speedread-style".toList

/-- The CSS text of the injected style block (src/app.py lines 158-163). -/
def speedread_style_css : List Char :=
  ("p \x7b text-indent: 1.25em; margin-top: 0; margin-bottom: 0; \x7d" ++
   " p + p \x7b margin-top: 0; \x7d" ++
   " .sr-gap \x7b text-indent: 0; margin: 0 0 1em 0; \x7d" ++
   " .punct \x7b color: #666; opacity: 0.65; \x7d").toList

/-- The injected style element (src/app.py lines 157-164); its
`type="text/css"` attribute is outside the modelled attributes. -/
def speedread_style_elem : HNode :=
  HNode.elem styleTag (some speedreadStyleId) [] [HNode.text speedread_style_css]

/-- `head.find("style", id="speedread-style")` succeeds: a recursive search
of the head subtree for a style element with the reserved id. -/
def style_found : List HNode → Bool
  | [] => false
  | HNode.text _ :: rest => style_found rest
  | HNode.elem n i _ ch :: rest =>
    (n == styleTag && i == some speedreadStyleId) || style_found ch || style_found rest

/-- The number of style elements with the reserved id in a subtree forest. -/
def style_count : List HNode → Nat
  | [] => 0
  | HNode.text _ :: rest => style_count rest
  | HNode.elem n i _ ch :: rest =>
    (if n == styleTag && i == some speedreadStyleId then 1 else 0)
      + style_count ch + style_count rest

/-- `ensure_style` (src/app.py lines 151-164). -/
def ensure_style (doc : HDoc) : HDoc :=
  match doc.head with
  | none => doc
  | some head =>
    if style_found head then doc
    else { doc with head := some (head ++ [speedread_style_elem]) }

/-- The tree node built for one rewrite node: `NavigableString`,
`<strong>`, or `<span class="punct">` (src/app.py lines 119-130). -/
def toHNode : RewriteNode → HNode
  | RewriteNode.nstring s => HNode.text s
  | RewriteNode.strong s => HNode.elem strongTag none [] [HNode.text s]
  | RewriteNode.punctSpan s => HNode.elem spanTag none [punctClass] [HNode.text s]

/-- The effect of `build_nodes_for_text` plus `replace_text_node` on one
text node (src/app.py lines 140-147, 182-185): the text node is replaced by
the annotation nodes when a sequence is returned, otherwise kept. -/
def annotate_text (mode s : List Char) : List HNode :=
  match build_nodes_for_text s mode with
  | none => [HNode.text s]
  | some ns => ns.map toHNode

/-- The parent check of src/app.py line 180: `parent.name in ("script", "style")`. -/
def is_script_or_style (n : List Char) : Bool :=
  n == scriptTag || n == styleTag

/-- One visit of the paragraph loop (src/app.py lines 176-185): the visited
paragraph's `p.find_all(string=True)` snapshot is every text node currently
in its subtree, at any depth, and each one is annotated unless its immediate
parent element is a script or style element (`blocked`). -/
def annotate_sweep (mode : List Char) (blocked : Bool) : List HNode → List HNode
  | [] => []
  | HNode.text s :: rest =>
    (if blocked then [HNode.text s] else annotate_text mode s) ++ annotate_sweep mode blocked rest
  | HNode.elem n i c ch :: rest =>
    HNode.elem n i c (annotate_sweep mode (is_script_or_style n) ch)
      :: annotate_sweep mode blocked rest

/-- The loop over `body.find_all("p")` (src/app.py lines 175-185): every
paragraph of the snapshot is visited in document order and all text nodes
then in its subtree are swept.  A paragraph nested inside another paragraph
is visited after its ancestor's visit has already annotated its subtree, so
its own visit re-annotates the annotation output (nested strong elements).
One visit applies `annotate_text` pointwise to each text node currently in
the subtree, with the blocked check against that node's current parent, so
a text node below k paragraphs undergoes k successive sweeps in either
traversal order; the source's outer-first in-place mutation therefore
equals this inner-first recursion, which processes nested paragraphs inside
`ch` first and then runs the paragraph's own sweep over the whole result.
Text nodes outside every paragraph are untouched. -/
def annotate_nodes (mode : List Char) : List HNode → List HNode
  | [] => []
  | HNode.text s :: rest => HNode.text s :: annotate_nodes mode rest
  | HNode.elem n i c ch :: rest =>
    (if n == pTag then HNode.elem n i c (annotate_sweep mode false (annotate_nodes mode ch))
     else HNode.elem n i c (annotate_nodes mode ch)) :: annotate_nodes mode rest

def NBSP : Char := ' '

/-- The inserted gap paragraph (src/app.py lines 193-195). -/
def gap_paragraph : HNode :=
  HNode.elem pTag none [srGapClass] [HNode.text [NBSP]]

/-- `p.find_next_sibling()` exists, is a `p`, and carries the `sr-gap`
class (src/app.py lines 190-191); `find_next_sibling` skips text siblings. -/
def next_sibling_is_gap : List HNode → Bool
  | [] => false
  | HNode.text _ :: rest => next_sibling_is_gap rest
  | HNode.elem n _ c _ :: _ => n == pTag && c.contains srGapClass

/-- The gap-insertion loop (src/app.py lines 188-196) over the snapshot
`body.find_all("p")`: after every paragraph whose next element sibling is
not already a gap paragraph, a fresh gap paragraph is inserted; inserted
gaps are not in the snapshot and are not themselves processed in the same
run.  An insertion after a paragraph never changes what follows a later
paragraph of the snapshot, so the left-to-right functional pass coincides
with the source's in-place mutation. -/
def gap_pass : List HNode → List HNode
  | [] => []
  | HNode.text s :: rest => HNode.text s :: gap_pass rest
  | HNode.elem n i c ch :: rest =>
    if n == pTag then
      if next_sibling_is_gap rest then HNode.elem n i c (gap_pass ch) :: gap_pass rest
      else HNode.elem n i c (gap_pass ch) :: gap_paragraph :: gap_pass rest
    else HNode.elem n i c (gap_pass ch) :: gap_pass rest

/-- `process_html_bytes` (src/app.py lines 167-198) on the parsed document:
if there is no body the input is returned unchanged; otherwise the style is
ensured in the head, every paragraph text node is annotated, and the gap
pass runs over the (already annotated) body. -/
def process_html_bytes (mode : List Char) (doc : HDoc) : HDoc :=
  match doc.body with
  | none => doc
  | some body =>
    let doc1 := ensure_style doc
    { doc1 with body := some (gap_pass (annotate_nodes mode body)) }

/-- The number of paragraph elements in a subtree forest. -/
def paragraph_count : List HNode → Nat
  | [] => 0
  | HNode.text _ :: rest => paragraph_count rest
  | HNode.elem n _ _ ch :: rest =>
    (if n == pTag then 1 else 0) + paragraph_count ch + paragraph_count rest

def doc_paragraph_count (d : HDoc) : Nat := paragraph_count (d.body.getD [])

def head_style_count (d : HDoc) : Nat := style_count (d.head.getD [])

/-- Modelled from the spec: the scoped text replacement that §4.5 of the
specification describes for the document rewriter — every text node that
lies inside a paragraph element (`inP`) and whose immediate parent element
is not a script or style element (`blocked`) is replaced by `F` of its
text; every other node is kept, elements keeping their name, id and
classes.  The annotation pass of the source is proved equal to this
replacement instantiated with the annotator on every document in which no
paragraph is nested inside another paragraph (on nested paragraphs the
source re-annotates, see `annotate_nodes`), and instantiating `F` with
the single-text-node identity yields the identity transformation. -/
def spec_scoped_replace (F : List Char → List HNode) : Bool → Bool → List HNode → List HNode
  | _, _, [] => []
  | inP, blocked, HNode.text s :: rest =>
    (if inP && !blocked then F s else [HNode.text s])
      ++ spec_scoped_replace F inP blocked rest
  | inP, blocked, HNode.elem n i c ch :: rest =>
    HNode.elem n i c
        (spec_scoped_replace F (inP || n == pTag) (is_script_or_style n) ch)
      :: spec_scoped_replace F inP blocked rest

/-- No paragraph element of the forest is nested inside a paragraph
element; `inP` records whether the forest already sits inside one. -/
def nested_p_free (inP : Bool) : List HNode → Bool
  | [] => true
  | HNode.text _ :: rest => nested_p_free inP rest
  | HNode.elem n _ _ ch :: rest =>
    (!(n == pTag) || !inP) && nested_p_free (inP || n == pTag) ch && nested_p_free inP rest

/-- The number of strong elements in a subtree forest. -/
def strong_count : List HNode → Nat
  | [] => 0
  | HNode.text _ :: rest => strong_count rest
  | HNode.elem n _ _ ch :: rest =>
    (if n == strongTag then 1 else 0) + strong_count ch + strong_count rest

def emTag : List Char := "em".toList

/-- A document whose body is a single empty paragraph and which has no head. -/
def single_paragraph_doc : HDoc := ⟨none, some [HNode.elem pTag none [] []]⟩

/-- A document whose head already holds two style elements with the
reserved id. -/
def double_style_doc : HDoc :=
  ⟨some [speedread_style_elem, speedread_style_elem], some []⟩

/-- A document whose only text node sits inside an em element inside a
paragraph — at depth 2 under the paragraph, not directly inside it. -/
def nested_em_doc : HDoc :=
  ⟨none, some [HNode.elem pTag none []
    [HNode.elem emTag none [] [HNode.text "мама".toList]]]⟩

/-! ## The archive rewriter model (src/app.py lines 201-226)

`process_epub` iterates `zin.infolist()` in order and writes each entry to
the output container, reading the payload by NAME (`zin.read(info.filename)`,
line 207), routing the payload of HTML-family entries through the document
rewriter, and copying the listed metadata fields.  The model represents the
container as its entry list — a `ZipInfo` record holding exactly the fields
the source constructs or copies (lines 212-222), paired with the outcome of
reading that entry — and takes the byte-level payload transform as a
parameter `t` (in the program, `t` is `process_html_bytes` composed with
parsing/serialization); every theorem below holds for all `t`.

The external `zipfile` standard library contributes two behaviours that the
model carries as data, following the specification's interface (§4.6, §5,
§7) and the library's documented semantics: (1) opening the raw bytes
either yields the entry list of a valid container or raises `BadZipFile`
(the spec's `InvalidArchive`) — that outcome is the `parsed` argument of
`process_epub_outcome`; (2) `ZipFile.read` resolves the name through the
`NameToInfo` dictionary, built entry by entry so that the LAST entry with a
given name wins, and reading that entry either returns its decompressed
bytes or raises (`RuntimeError` on an encrypted entry, `BadZipFile` on a
CRC mismatch) — each entry's read outcome is the `Except` component of the
entry, and `zip_read` performs the last-duplicate-wins resolution.  An
exception anywhere abandons the in-memory output, so the caller observes
either the full rewritten entry list or an error, never a partial one. -/

structure ZipInfo where
  filename : List Char
  date_time : Nat × Nat × Nat × Nat × Nat × Nat
  compress_type : Nat
  external_attr : Nat
  internal_attr : Nat
  flag_bits : Nat
  create_system : Nat
  create_version : Nat
  extract_version : Nat
  volume : Nat
  comment : List Nat
  extra : List Nat
deriving DecidableEq

/-- `info.filename.lower().endswith((".xhtml", ".html", ".htm"))`
(src/app.py lines 208-209). -/
def isHtmlFamilyName (name : List Char) : Bool :=
  let lower := str_lower name
  ".xhtml".toList.isSuffixOf lower || ".html".toList.isSuffixOf lower ||
    ".htm".toList.isSuffixOf lower

/-- The `ZipInfo` constructed for the output entry (src/app.py lines
212-222): a fresh record with the same filename and date_time, then every
listed metadata field copied from the source entry. -/
def new_info_of (info : ZipInfo) : ZipInfo :=
  { filename := info.filename
    date_time := info.date_time
    compress_type := info.compress_type
    external_attr := info.external_attr
    internal_attr := info.internal_attr
    flag_bits := info.flag_bits
    create_system := info.create_system
    create_version := info.create_version
    extract_version := info.extract_version
    volume := info.volume
    comment := info.comment
    extra := info.extra }

/-- The errors the zip layer can surface: `badZipFile` for an input that is
not a valid zip structure (and for a CRC mismatch during a read), and
`readFailure` for a per-entry read that raises (e.g. `RuntimeError` on an
encrypted entry). -/
inductive ZipError where
  | badZipFile : ZipError
  | readFailure : ZipError
deriving DecidableEq

/-- `zin.read(info.filename)` (src/app.py line 207): the name resolves
through zipfile's `NameToInfo` dictionary, where the last entry with that
name wins, and that entry's read outcome is returned.  The `none` branch
(a name absent from the list, `KeyError` in the library) is unreachable for
names taken from the entry list itself. -/
def zip_read (entries : List (ZipInfo × Except ZipError (List Nat))) (name : List Char) :
    Except ZipError (List Nat) :=
  match (entries.filter (fun e => e.1.filename == name)).getLast? with
  | some e => e.2
  | none => Except.error ZipError.readFailure

/-- The entry loop of `process_epub` (src/app.py lines 206-223) over the
entry list `todo`, reading each payload by name from the full container
`entries`: the first failing read raises out of the loop, abandoning the
in-memory output; otherwise every entry is written with copied metadata. -/
def process_epub_loop (t : List Nat → List Nat)
    (entries : List (ZipInfo × Except ZipError (List Nat))) :
    List (ZipInfo × Except ZipError (List Nat)) → Except ZipError (List (ZipInfo × List Nat))
  | [] => Except.ok []
  | e :: rest =>
    match zip_read entries e.1.filename with
    | Except.error err => Except.error err
    | Except.ok data =>
      match process_epub_loop t entries rest with
      | Except.error err => Except.error err
      | Except.ok out =>
        Except.ok ((new_info_of e.1,
          if isHtmlFamilyName e.1.filename then t data else data) :: out)

/-- `process_epub` (src/app.py lines 201-226) on a successfully parsed
container: the loop over its own entry list. -/
def process_epub (t : List Nat → List Nat)
    (entries : List (ZipInfo × Except ZipError (List Nat))) :
    Except ZipError (List (ZipInfo × List Nat)) :=
  process_epub_loop t entries entries

/-- Modelled from the spec: the whole of `process_epub` including the zip
parsing done by the external `zipfile` library (not part of this
repository).  Opening the input bytes either yields the entry list of a
valid container or raises `BadZipFile` (the spec's `InvalidArchive`); that
outcome is the `parsed` argument, and an open failure propagates with no
entries written. -/
def process_epub_outcome (t : List Nat → List Nat)
    (parsed : Except Unit (List (ZipInfo × Except ZipError (List Nat)))) :
    Except ZipError (List (ZipInfo × List Nat)) :=
  match parsed with
  | Except.error _ => Except.error ZipError.badZipFile
  | Except.ok entries => process_epub t entries

/-- A sample non-HTML entry record. -/
def sample_png_info : ZipInfo :=
  ⟨"img.png".toList, (1980, 1, 1, 0, 0, 0), 0, 0, 0, 0, 0, 20, 20, 0, [], []⟩

/-- A sample HTML entry record. -/
def sample_html_info : ZipInfo :=
  ⟨"ch1.html".toList, (1980, 1, 1, 0, 0, 0), 8, 0, 0, 0, 3, 20, 20, 0, [], []⟩

/-- A sample two-entry container with distinct names and readable
payloads. -/
def sample_entries : List (ZipInfo × Except ZipError (List Nat)) :=
  [(sample_png_info, Except.ok [1, 2]), (sample_html_info, Except.ok [3])]


/-! ## Supporting lemmas for segmentation -/

theorem take_concat_drop_of_length (w : List Char) (b : Nat) :
    w.take b ++ w.drop (w.take b).length = w := by
  rcases Nat.le_total b w.length with h | h
  · rw [List.length_take, Nat.min_eq_left h, List.take_append_drop]
  · rw [List.take_of_length_le h, List.drop_length, List.append_nil]

theorem split_head_is_take (w first : List Char) (l : List (List Char))
    (h : split_russian_syllables w = first :: l) : ∃ b, first = w.take b := by
  unfold split_russian_syllables at h
  by_cases hv : (vowel_positions w).length ≤ 1
  · rw [if_pos hv] at h
    injection h with h1 _
    exact ⟨w.length, by rw [← h1, List.take_length]⟩
  · rw [if_neg hv] at h
    rcases hvp : vowel_positions w with _ | ⟨v, vrest⟩
    · rw [hvp] at hv; simp at hv
    · rcases vrest with _ | ⟨v2, vr⟩
      · rw [hvp] at hv; simp at hv
      · rw [hvp] at h
        simp only [split_syllables_loop, List.drop_zero] at h
        injection h with h1 _
        exact ⟨_, h1.symm⟩

theorem first_syllable_parts_concat (w : List Char) :
    (first_syllable_parts w).1 ++ (first_syllable_parts w).2 = w := by
  unfold first_syllable_parts
  rcases hs : split_russian_syllables w with _ | ⟨first, restS⟩
  · simp
  · obtain ⟨b, hb⟩ := split_head_is_take w first restS hs
    subst hb
    exact take_concat_drop_of_length w b

theorem bionic_parts_concat (w : List Char) :
    (bionic_parts w).1 ++ (bionic_parts w).2 = w := by
  unfold bionic_parts
  exact List.take_append_drop _ w

/-! ## Claim C2 -/

/-- C2: for every non-empty word and either strategy, the returned pair
(head, remainder) satisfies head ++ remainder = word exactly — same
codepoints, same case, no loss or insertion. -/
theorem segmentation_head_append_remainder (w : List Char) (_hw : w ≠ []) :
    (first_syllable_parts w).1 ++ (first_syllable_parts w).2 = w ∧
    (bionic_parts w).1 ++ (bionic_parts w).2 = w :=
  ⟨first_syllable_parts_concat w, bionic_parts_concat w⟩

theorem segmentation_head_append_remainder_witness :
    (first_syllable_parts "слово".toList).1 ++ (first_syllable_parts "слово".toList).2
        = "слово".toList ∧
    (bionic_parts "слово".toList).1 ++ (bionic_parts "слово".toList).2 = "слово".toList :=
  segmentation_head_append_remainder "слово".toList (by decide)

/-! ## Claim C5 -/

/-- C5: the bionic segmenter chooses the head length exactly by the
length-bucket table: length ≤ 3 gives the whole word, lengths 4-5 and 6-7
give head length 2, lengths 8-10 give 3, and length ≥ 11 gives
max 3 (length / 3) with integer division. -/
theorem bionic_parts_length_table (w : List Char) :
    (w.length ≤ 3 → (bionic_parts w).1 = w) ∧
    (4 ≤ w.length → w.length ≤ 5 → (bionic_parts w).1.length = 2) ∧
    (6 ≤ w.length → w.length ≤ 7 → (bionic_parts w).1.length = 2) ∧
    (8 ≤ w.length → w.length ≤ 10 → (bionic_parts w).1.length = 3) ∧
    (11 ≤ w.length → (bionic_parts w).1.length = max 3 (w.length / 3)) := by
  refine ⟨?_, ?_, ?_, ?_, ?_⟩
  · intro h
    simp only [bionic_parts, if_pos h]
    exact List.take_length w
  · intro h1 h2
    simp only [bionic_parts, List.length_take]
    rw [if_neg (by omega), if_pos (by omega)]
    omega
  · intro h1 h2
    simp only [bionic_parts, List.length_take]
    rw [if_neg (by omega)]
    rcases Nat.le_total w.length 5 with h5 | h5
    · rw [if_pos (by omega)]; omega
    · rw [if_neg (by omega), if_pos (by omega)]; omega
  · intro h1 h2
    simp only [bionic_parts, List.length_take]
    rw [if_neg (by omega), if_neg (by omega), if_neg (by omega), if_pos (by omega)]
    omega
  · intro h
    simp only [bionic_parts, List.length_take]
    rw [if_neg (by omega), if_neg (by omega), if_neg (by omega), if_neg (by omega)]
    omega

theorem bionic_parts_length_table_witness :
    11 ≤ "перестройка".toList.length ∧
    (bionic_parts "перестройка".toList).1.length = max 3 ("перестройка".toList.length / 3) :=
  ⟨by decide, (bionic_parts_length_table "перестройка".toList).2.2.2.2 (by decide)⟩

/-! ## Supporting lemmas and claims for the annotator -/

theorem findTokens_reconstruct (cs : List Char) :
    ((findTokens cs).1.map matchText).flatten ++ (findTokens cs).2 = cs := by
  induction cs with
  | nil => rfl
  | cons c rest ih =>
    simp only [findTokens]
    rcases hr : findTokens rest with ⟨ms, trail⟩
    rw [hr] at ih
    by_cases hw : is_word_char c
    · simp only [hw, if_pos]
      rcases ms with _ | ⟨⟨g, t⟩, ms2⟩
      · simp_all [matchText, tokText]
      · rcases t with s | pc
        · rcases g with _ | ⟨gc, g2⟩
          · simp_all [matchText, tokText]
          · simp_all [matchText, tokText]
        · simp_all [matchText, tokText]
    · simp only [hw]
      by_cases hp : is_punct c
      · simp_all [matchText, tokText]
      · rcases ms with _ | ⟨⟨g, t⟩, ms2⟩
        · simp_all [matchText]
        · simp_all [matchText]

theorem nodesText_append (a b : List RewriteNode) :
    nodesText (a ++ b) = nodesText a ++ nodesText b := by
  simp [nodesText]

theorem token_nodes_text (mode : List Char) (tk : Tok) :
    nodesText (token_nodes mode tk) = tokText tk := by
  rcases tk with token | c
  · have hparts :
        (if mode = "bionic".toList then bionic_parts token
         else first_syllable_parts token).1 ++
        (if mode = "bionic".toList then bionic_parts token
         else first_syllable_parts token).2 = token := by
      by_cases hm : mode = "bionic".toList
      · rw [if_pos hm]; exact bionic_parts_concat token
      · rw [if_neg hm]; exact first_syllable_parts_concat token
    simp only [token_nodes, tokText]
    set p := if mode = "bionic".toList then bionic_parts token
      else first_syllable_parts token with hp
    by_cases h1 : p.1 ≠ []
    · rw [if_pos h1]
      by_cases h2 : p.2 ≠ []
      · rw [if_pos h2]
        simp [nodesText, nodeText, hparts]
      · rw [if_neg h2]
        push_neg at h2
        simp only [nodesText, List.map_cons, List.map_nil, nodeText]
        rw [← hparts, h2]
        simp
    · rw [if_neg h1]
      simp [nodesText, nodeText]
  · simp [token_nodes, tokText, nodesText, nodeText]

theorem match_nodes_text (mode : List Char) (m : List Char × Tok) :
    nodesText ((if m.1.isEmpty then [] else [RewriteNode.nstring m.1]) ++ token_nodes mode m.2)
      = matchText m := by
  rw [nodesText_append, token_nodes_text, matchText]
  by_cases h : m.1.isEmpty
  · rw [if_pos h]
    rw [List.isEmpty_iff] at h
    rw [h]
    simp [nodesText]
  · rw [if_neg h]
    simp [nodesText, nodeText]

theorem build_flatten_text (mode : List Char) (ms : List (List Char × Tok)) :
    nodesText ((ms.map (fun m =>
        (if m.1.isEmpty then [] else [RewriteNode.nstring m.1]) ++ token_nodes mode m.2)).flatten)
      = (ms.map matchText).flatten := by
  induction ms with
  | nil => rfl
  | cons m ms2 ih =>
    simp only [List.map_cons, List.flatten_cons]
    rw [nodesText_append, ih, match_nodes_text]

/-! ## Claim C4 -/

/-- C4: whenever `build_nodes_for_text` returns a sequence of rewrite nodes,
the concatenation of the text content of those nodes, in order, equals the
input text exactly, for every input text and every mode. -/
theorem build_nodes_for_text_concat (text mode : List Char) (ns : List RewriteNode)
    (h : build_nodes_for_text text mode = some ns) : nodesText ns = text := by
  unfold build_nodes_for_text at h
  by_cases he : (findTokens text).1.isEmpty
  · simp [he] at h
  · rw [if_neg he] at h
    injection h with h1
    rw [← h1, nodesText_append, build_flatten_text]
    have htrail :
        nodesText (if (findTokens text).2.isEmpty then []
          else [RewriteNode.nstring (findTokens text).2]) = (findTokens text).2 := by
      by_cases ht : (findTokens text).2.isEmpty
      · rw [if_pos ht, List.isEmpty_iff] at *
        rw [ht]
        rfl
      · rw [if_neg ht]
        simp [nodesText, nodeText]
    rw [htrail]
    exact findTokens_reconstruct text

theorem build_nodes_for_text_concat_witness :
    build_nodes_for_text "мама!".toList "bionic".toList =
      some [RewriteNode.strong "ма".toList, RewriteNode.nstring "ма".toList,
        RewriteNode.punctSpan "!".toList] ∧
    nodesText [RewriteNode.strong "ма".toList, RewriteNode.nstring "ма".toList,
        RewriteNode.punctSpan "!".toList] = "мама!".toList :=
  ⟨by decide, build_nodes_for_text_concat "мама!".toList "bionic".toList _ (by decide)⟩

/-! ## Claim C10 -/

theorem token_nodes_mode_default (mode : List Char) (h : mode ≠ "bionic".toList) (tk : Tok) :
    token_nodes mode tk = token_nodes "syllable".toList tk := by
  rcases tk with token | c
  · simp only [token_nodes]
    rw [if_neg h, if_neg (by decide : ¬ ("syllable".toList = "bionic".toList))]
  · rfl

/-- C10: for every mode string other than "bionic" — including unrecognized
values such as the empty string — the word annotator behaves exactly as in
"syllable" mode, and no mode value is rejected: `build_nodes_for_text` is a
total function and its result for any `mode ≠ "bionic"` equals its result
for "syllable". -/
theorem mode_fallback_to_syllable (text mode : List Char) (h : mode ≠ "bionic".toList) :
    build_nodes_for_text text mode = build_nodes_for_text text "syllable".toList := by
  have hfun : (fun m : List Char × Tok =>
      (if m.1.isEmpty then [] else [RewriteNode.nstring m.1]) ++ token_nodes mode m.2) =
      (fun m : List Char × Tok =>
      (if m.1.isEmpty then [] else [RewriteNode.nstring m.1]) ++
        token_nodes "syllable".toList m.2) := by
    funext m
    rw [token_nodes_mode_default mode h]
  unfold build_nodes_for_text
  rw [hfun]

theorem mode_fallback_to_syllable_witness :
    ("".toList ≠ "bionic".toList) ∧
    build_nodes_for_text "привет, мир".toList "".toList =
      build_nodes_for_text "привет, мир".toList "syllable".toList :=
  ⟨by decide, mode_fallback_to_syllable "привет, мир".toList "".toList (by decide)⟩
/-! ## Supporting lemmas and claims for the document rewriter -/

theorem annotate_sweep_eq_scoped (mode : List Char) (blocked : Bool) (l : List HNode) :
    annotate_sweep mode blocked l = spec_scoped_replace (annotate_text mode) true blocked l := by
  induction blocked, l using annotate_sweep.induct mode with
  | case1 => simp [annotate_sweep, spec_scoped_replace]
  | case2 blocked s rest ih =>
    cases blocked <;> simp [annotate_sweep, spec_scoped_replace, ih]
  | case3 blocked n i c ch rest ih1 ih2 =>
    simp [annotate_sweep, spec_scoped_replace, ih1, ih2]

theorem paragraph_count_zero_of_nested_p_free :
    ∀ (inP : Bool) (l : List HNode), inP = true → nested_p_free inP l = true →
      paragraph_count l = 0 := by
  intro inP l
  induction inP, l using nested_p_free.induct with
  | case1 _ => intro _ _; simp [paragraph_count]
  | case2 inP s rest ih =>
    intro h1 h2
    simp only [nested_p_free] at h2
    simp [paragraph_count, ih h1 h2]
  | case3 inP n i c ch rest ih1 ih2 =>
    intro h1 h2
    subst h1
    simp only [nested_p_free, Bool.and_eq_true] at h2
    obtain ⟨⟨hcond, hch⟩, hrest⟩ := h2
    have hn : (n == pTag) = false := by
      cases hnp : n == pTag
      · rfl
      · rw [hnp] at hcond; simp at hcond
    simp [paragraph_count, hn, ih1 (Bool.true_or _) hch, ih2 rfl hrest]

theorem annotate_nodes_of_paragraph_free (mode : List Char) (l : List HNode) :
    paragraph_count l = 0 → annotate_nodes mode l = l := by
  induction l using annotate_nodes.induct mode with
  | case1 => intro _; simp [annotate_nodes]
  | case2 s rest ih =>
    intro h
    simp only [paragraph_count] at h
    simp [annotate_nodes, ih h]
  | case3 n i c ch rest ih1 ih2 =>
    intro h
    simp only [paragraph_count] at h
    have hn : (n == pTag) = false := by
      cases hnp : n == pTag
      · rfl
      · rw [hnp] at h; simp at h
    rw [hn] at h
    simp only [if_neg Bool.false_ne_true, Nat.zero_add, Nat.add_eq_zero] at h
    simp [annotate_nodes, hn, ih1 h.1, ih2 h.2]

theorem annotate_nodes_eq_scoped (mode : List Char) (l : List HNode) :
    ∀ (blocked : Bool), nested_p_free false l = true →
      annotate_nodes mode l = spec_scoped_replace (annotate_text mode) false blocked l := by
  induction l using annotate_nodes.induct mode with
  | case1 => intro blocked _; simp [annotate_nodes, spec_scoped_replace]
  | case2 s rest ih =>
    intro blocked h
    simp only [nested_p_free] at h
    simp [annotate_nodes, spec_scoped_replace, ih blocked h]
  | case3 n i c ch rest ih1 ih2 =>
    intro blocked h
    simp only [nested_p_free, Bool.and_eq_true] at h
    obtain ⟨⟨hcond, hch⟩, hrest⟩ := h
    cases hn : n == pTag
    · rw [hn, Bool.false_or] at hch
      simp [annotate_nodes, spec_scoped_replace, hn,
        ih1 (is_script_or_style n) hch, ih2 blocked hrest]
    · have hn2 : n = pTag := by rwa [beq_iff_eq] at hn
      have hss : is_script_or_style pTag = false := by decide
      subst hn2
      rw [hn, Bool.false_or] at hch
      have hpc : paragraph_count ch = 0 :=
        paragraph_count_zero_of_nested_p_free true ch rfl hch
      simp [annotate_nodes, spec_scoped_replace, hn, hss,
        annotate_nodes_of_paragraph_free mode ch hpc,
        annotate_sweep_eq_scoped, ih2 blocked hrest]

theorem spec_scoped_replace_id (inP blocked : Bool) (l : List HNode) :
    spec_scoped_replace (fun s => [HNode.text s]) inP blocked l = l := by
  induction inP, blocked, l using spec_scoped_replace.induct (fun s => [HNode.text s]) with
  | case1 => simp [spec_scoped_replace]
  | case2 inP blocked s rest ih =>
    cases inP <;> cases blocked <;> simp [spec_scoped_replace, ih]
  | case3 inP blocked n i c ch rest ih1 ih2 =>
    simp [spec_scoped_replace, ih1, ih2]

/-! ## Claim C7 -/

/-- C7 (amended): on every HTML document in which no paragraph element is
nested inside another paragraph, the text mutation of the document rewriter
is scoped to text nodes lying anywhere inside a paragraph element whose
immediate parent element is not a script or style element: the annotation
pass equals the spec's scoped replacement of exactly those text nodes by
the annotator output, and the scoped replacement that keeps each eligible
text node is the identity — so apart from those replacements (and, in the
full rewriter, the head style injection and the inserted gap paragraphs)
every node of the tree is left unchanged.  (On documents with nested
paragraphs the snapshot loop re-annotates already-annotated text; the
mutation is still confined to paragraph subtrees.) -/
theorem text_mutation_scoped_amended :
    (∀ (mode : List Char) (l : List HNode), nested_p_free false l = true →
      annotate_nodes mode l = spec_scoped_replace (annotate_text mode) false false l) ∧
    (∀ (inP blocked : Bool) (l : List HNode),
      spec_scoped_replace (fun s => [HNode.text s]) inP blocked l = l) :=
  ⟨fun mode l h => annotate_nodes_eq_scoped mode l false h, spec_scoped_replace_id⟩

theorem text_mutation_scoped_amended_witness :
    nested_p_free false [HNode.elem pTag none [] [HNode.text "да".toList]] = true ∧
    annotate_nodes "syllable".toList [HNode.elem pTag none [] [HNode.text "да".toList]] =
      spec_scoped_replace (annotate_text "syllable".toList) false false
        [HNode.elem pTag none [] [HNode.text "да".toList]] :=
  ⟨by simp [nested_p_free], text_mutation_scoped_amended.1 "syllable".toList
    [HNode.elem pTag none [] [HNode.text "да".toList]] (by simp [nested_p_free])⟩

/-- C7 counterexample: in `nested_em_doc` the only text node sits inside an
em element inside the paragraph, not directly inside the paragraph, so the
claim as stated (mutation scoped to text nodes DIRECTLY inside paragraph
elements, everything else unchanged up to style injection and gap
insertion) predicts an output body with no strong element; the code
annotates that nested text node, and the output body contains one strong
element. -/
theorem text_mutation_not_only_direct_counterexample :
    strong_count (nested_em_doc.body.getD []) = 0 ∧
    strong_count ((process_html_bytes "syllable".toList nested_em_doc).body.getD []) = 1 := by
  have hbuild : build_nodes_for_text ['м', 'а', 'м', 'а'] ['s', 'y', 'l', 'l', 'a', 'b', 'l', 'e'] =
      some [RewriteNode.strong ['м', 'а'], RewriteNode.nstring ['м', 'а']] := by decide
  have hep : (emTag == pTag) = false := by decide
  have hes : (emTag == strongTag) = false := by decide
  have hps : (pTag == strongTag) = false := by decide
  have hie : is_script_or_style emTag = false := by decide
  have hgs : (pTag == pTag && List.contains [srGapClass] srGapClass) = true := by decide
  have hsp : ¬ (strongTag = pTag) := by decide
  have hep2 : ¬ (emTag = pTag) := by decide
  have hes2 : ¬ (emTag = strongTag) := by decide
  have hps2 : ¬ (pTag = strongTag) := by decide
  constructor
  · simp [nested_em_doc, strong_count, hep, hes, hps, hep2, hes2, hps2]
  · simp [nested_em_doc, process_html_bytes, ensure_style, annotate_nodes, annotate_sweep,
      annotate_text, hbuild, toHNode, gap_pass, next_sibling_is_gap, gap_paragraph,
      strong_count, hep, hes, hps, hie, hgs, hsp, hep2, hes2, hps2]

/-! ## Claim C9 -/

/-- C9: for every document without a body element, the document rewriter
returns its input unchanged and raises no error (`process_html_bytes` is a
total function; in the source the very same input byte string is handed
back). -/
theorem process_html_no_body_unchanged (mode : List Char) (d : HDoc) (h : d.body = none) :
    process_html_bytes mode d = d := by
  unfold process_html_bytes
  rw [h]

theorem process_html_no_body_unchanged_witness :
    process_html_bytes "syllable".toList ⟨some [], none⟩ = ⟨some [], none⟩ :=
  process_html_no_body_unchanged "syllable".toList ⟨some [], none⟩ rfl

/-! ## Supporting lemmas for style injection -/

theorem style_count_append (a b : List HNode) :
    style_count (a ++ b) = style_count a + style_count b := by
  induction a with
  | nil => simp [style_count]
  | cons x rest ih =>
    cases x with
    | text s => simpa [style_count] using ih
    | elem n i c ch =>
      simp [style_count, ih]
      omega

theorem style_found_iff_count (l : List HNode) :
    style_found l = true ↔ style_count l ≠ 0 := by
  induction l using style_found.induct with
  | case1 => simp [style_found, style_count]
  | case2 s rest ih => simpa [style_found, style_count] using ih
  | case3 n i c ch rest ih1 ih2 =>
    cases hc : (n == styleTag && i == some speedreadStyleId)
    · simp [style_found, style_count, hc, ih1, ih2]
      omega
    · simp [style_found, style_count, hc, ih1, ih2]

theorem style_count_single : style_count [speedread_style_elem] = 1 := by
  have hc : (styleTag == styleTag && (some speedreadStyleId == some speedreadStyleId)) = true := by
    decide
  simp [style_count, speedread_style_elem, hc]

theorem process_html_bytes_of_body_none (mode : List Char) (d : HDoc) (h : d.body = none) :
    process_html_bytes mode d = d := by
  unfold process_html_bytes
  rw [h]

theorem process_html_bytes_head (mode : List Char) (d : HDoc) (b h : List HNode)
    (hb : d.body = some b) (hh : d.head = some h) :
    (process_html_bytes mode d).head =
      if style_found h then some h else some (h ++ [speedread_style_elem]) := by
  by_cases hf : style_found h = true <;>
    simp [process_html_bytes, ensure_style, hb, hh, hf]

theorem process_html_bytes_body (mode : List Char) (d : HDoc) (b : List HNode)
    (hb : d.body = some b) :
    (process_html_bytes mode d).body = some (gap_pass (annotate_nodes mode b)) := by
  unfold process_html_bytes
  rw [hb]

theorem process_html_bytes_keeps_style (mode : List Char) (d : HDoc) (b h : List HNode)
    (hb : d.body = some b) (hh : d.head = some h) (h1 : style_count h = 1) :
    (process_html_bytes mode d).head = some h ∧
      (process_html_bytes mode d).body = some (gap_pass (annotate_nodes mode b)) := by
  have hf : style_found h = true := (style_found_iff_count h).2 (by omega)
  exact ⟨by rw [process_html_bytes_head mode d b h hb hh, if_pos hf],
    process_html_bytes_body mode d b hb⟩

theorem iterate_process_keeps_style (mode : List Char) (n : Nat) :
    ∀ (d : HDoc) (b h : List HNode), d.body = some b → d.head = some h →
      style_count h = 1 →
      ∃ h2, ((process_html_bytes mode)^[n] d).head = some h2 ∧ style_count h2 = 1 := by
  induction n with
  | zero =>
    intro d b h hb hh h1
    exact ⟨h, by simpa using hh, h1⟩
  | succ m ih =>
    intro d b h hb hh h1
    rw [Function.iterate_succ_apply]
    obtain ⟨hhead, hbody⟩ := process_html_bytes_keeps_style mode d b h hb hh h1
    exact ih (process_html_bytes mode d) _ h hbody hhead h1

/-! ## Claim C6 -/

/-- C6 (amended): for every document that has a body and a head, with no
pre-existing style element carrying the reserved id in the head, running
the document rewriter any number n ≥ 1 of times yields a head containing
exactly one style element with the reserved id; and whenever such an
element is already present in a document's head, insertion is skipped and
the head is returned unchanged. -/
theorem style_injection_idempotent_amended (mode : List Char) (d : HDoc) (b h : List HNode)
    (hb : d.body = some b) (hh : d.head = some h) (h0 : style_count h = 0) :
    (∀ n : Nat, 1 ≤ n →
      ∃ h2, ((process_html_bytes mode)^[n] d).head = some h2 ∧ style_count h2 = 1) ∧
    (∀ (d2 : HDoc) (h2 : List HNode), d2.head = some h2 → style_found h2 = true →
      (process_html_bytes mode d2).head = some h2) := by
  constructor
  · intro n hn
    obtain ⟨m, rfl⟩ : ∃ m, n = m + 1 := ⟨n - 1, by omega⟩
    rw [Function.iterate_succ_apply]
    have hf : ¬ style_found h = true := by
      rw [style_found_iff_count]
      omega
    have hhead : (process_html_bytes mode d).head = some (h ++ [speedread_style_elem]) := by
      rw [process_html_bytes_head mode d b h hb hh, if_neg hf]
    have hbody := process_html_bytes_body mode d b hb
    have hc1 : style_count (h ++ [speedread_style_elem]) = 1 := by
      rw [style_count_append, h0, style_count_single]
    exact iterate_process_keeps_style mode m (process_html_bytes mode d) _ _ hbody hhead hc1
  · intro d2 h2 hh2 hf2
    rcases hb2 : d2.body with _ | b2
    · rw [process_html_bytes_of_body_none mode d2 hb2]
      exact hh2
    · rw [process_html_bytes_head mode d2 b2 h2 hb2 hh2, if_pos hf2]

theorem style_injection_idempotent_amended_witness :
    ∃ h2, ((process_html_bytes "syllable".toList)^[2] ⟨some [], some []⟩).head = some h2 ∧
      style_count h2 = 1 :=
  (style_injection_idempotent_amended "syllable".toList ⟨some [], some []⟩ [] [] rfl rfl
    (by simp [style_count])).1 2 (by omega)

/-- C6 counterexample: the claim quantifies over every HTML document, but a
document whose head already holds two style elements with the reserved id
keeps both: running the rewriter twice leaves the head style count at 2,
not exactly one, because the presence check suppresses insertion without
deduplicating. -/
theorem style_injection_counterexample :
    head_style_count (process_html_bytes "syllable".toList
        (process_html_bytes "syllable".toList double_style_doc)) = 2 := by
  have hc : (styleTag == styleTag && (some speedreadStyleId == some speedreadStyleId)) = true := by
    decide
  have hstep : process_html_bytes "syllable".toList double_style_doc = double_style_doc := by
    simp [double_style_doc, process_html_bytes, ensure_style, style_found, annotate_nodes,
      gap_pass, speedread_style_elem, hc]
  rw [hstep, hstep]
  simp [double_style_doc, head_style_count, style_count, speedread_style_elem, hc]

/-! ## Claim C1 -/

/-- C1 is violated by the code: the gap-insertion step is not idempotent.
On a document whose body is one empty paragraph, the first run inserts one
gap paragraph (count 2); in the second run the gap paragraph — itself a
paragraph whose next element sibling is not a gap paragraph — receives a
fresh gap after it, so the count grows to 3 instead of staying at 2.  The
guard of src/app.py line 191 only skips a paragraph already followed by a
gap; it never skips the gap paragraphs themselves. -/
theorem gap_insertion_not_idempotent :
    doc_paragraph_count (process_html_bytes "syllable".toList single_paragraph_doc) = 2 ∧
    doc_paragraph_count (process_html_bytes "syllable".toList
        (process_html_bytes "syllable".toList single_paragraph_doc)) = 3 := by
  have hbuild : build_nodes_for_text [NBSP] ['s', 'y', 'l', 'l', 'a', 'b', 'l', 'e'] = none := by
    decide
  have hgs : (pTag == pTag && List.contains [srGapClass] srGapClass) = true := by decide
  constructor <;>
    simp [single_paragraph_doc, process_html_bytes, ensure_style, annotate_nodes,
      annotate_sweep, annotate_text, hbuild, gap_pass, next_sibling_is_gap, gap_paragraph,
      paragraph_count, doc_paragraph_count, hgs]

/-! ## Supporting lemmas and claims for the archive rewriter -/

theorem new_info_of_eq (info : ZipInfo) : new_info_of info = info := rfl

theorem zip_read_of_nodup :
    ∀ (entries : List (ZipInfo × Except ZipError (List Nat))),
      (entries.map (fun e => e.1.filename)).Nodup →
      ∀ (i : Nat) (info : ZipInfo) (x : Except ZipError (List Nat)),
        entries[i]? = some (info, x) → zip_read entries info.filename = x := by
  intro entries
  induction entries with
  | nil =>
    intro _ i info x h
    simp at h
  | cons e rest ih =>
    intro hnodup i info x h
    rw [List.map_cons, List.nodup_cons] at hnodup
    obtain ⟨hni, hnr⟩ := hnodup
    cases i with
    | zero =>
      rw [List.getElem?_cons_zero] at h
      injection h with h1
      subst h1
      have hfil : rest.filter (fun e2 => e2.1.filename == info.filename) = [] := by
        rw [List.filter_eq_nil_iff]
        intro a ha hbeq
        exact hni (List.mem_map.mpr ⟨a, ha, beq_iff_eq.mp hbeq⟩)
      simp [zip_read, List.filter_cons, hfil]
    | succ j =>
      rw [List.getElem?_cons_succ] at h
      have hmem : info.filename ∈ rest.map (fun e2 => e2.1.filename) :=
        List.mem_map.mpr ⟨(info, x), List.getElem?_mem h, rfl⟩
      have hne : (e.1.filename == info.filename) = false := by
        cases hb : e.1.filename == info.filename
        · rfl
        · exact absurd (beq_iff_eq.mp hb ▸ hmem) hni
      have hrec := ih hnr j info x h
      simp only [zip_read, List.filter_cons, hne] at hrec ⊢
      exact hrec

theorem process_epub_loop_spec (t : List Nat → List Nat)
    (entries : List (ZipInfo × Except ZipError (List Nat))) :
    ∀ (todo : List (ZipInfo × Except ZipError (List Nat))),
      (∀ e ∈ todo, ∃ d, zip_read entries e.1.filename = Except.ok d) →
      ∃ out, process_epub_loop t entries todo = Except.ok out ∧
        out.length = todo.length ∧
        ∀ (i : Nat) (info : ZipInfo) (x : Except ZipError (List Nat)),
          todo[i]? = some (info, x) →
          ∀ d, zip_read entries info.filename = Except.ok d →
            out[i]? = some (new_info_of info,
              if isHtmlFamilyName info.filename then t d else d) := by
  intro todo
  induction todo with
  | nil =>
    intro _
    refine ⟨[], rfl, rfl, ?_⟩
    intro i info x h
    simp at h
  | cons e rest ih =>
    intro hok
    obtain ⟨d, hd⟩ := hok e (List.mem_cons_self e rest)
    obtain ⟨out2, hloop2, hlen2, hidx2⟩ :=
      ih (fun e2 he2 => hok e2 (List.mem_cons_of_mem e he2))
    refine ⟨(new_info_of e.1, if isHtmlFamilyName e.1.filename then t d else d) :: out2,
      ?_, by simp [hlen2], ?_⟩
    · simp only [process_epub_loop, hd, hloop2]
    · intro i info x h
      cases i with
      | zero =>
        rw [List.getElem?_cons_zero] at h
        injection h with h1
        intro d2 hd2
        rw [List.getElem?_cons_zero]
        have he1 : e.1 = info := by rw [h1]
        rw [he1] at hd
        rw [hd] at hd2
        injection hd2 with hd3
        rw [he1, hd3]
      | succ j =>
        rw [List.getElem?_cons_succ] at h
        intro d2 hd2
        rw [List.getElem?_cons_succ]
        exact hidx2 j info x h d2 hd2

theorem process_epub_loop_length (t : List Nat → List Nat)
    (entries : List (ZipInfo × Except ZipError (List Nat))) :
    ∀ (todo : List (ZipInfo × Except ZipError (List Nat)))
      (out : List (ZipInfo × List Nat)),
      process_epub_loop t entries todo = Except.ok out → out.length = todo.length := by
  intro todo
  induction todo with
  | nil =>
    intro out h
    simp only [process_epub_loop] at h
    injection h with h1
    simp [← h1]
  | cons e rest ih =>
    intro out h
    simp only [process_epub_loop] at h
    cases hr : zip_read entries e.1.filename with
    | error err => rw [hr] at h; exact Except.noConfusion h
    | ok data =>
      rw [hr] at h
      cases hl : process_epub_loop t entries rest with
      | error err => rw [hl] at h; exact Except.noConfusion h
      | ok out2 =>
        rw [hl] at h
        injection h with h1
        rw [← h1]
        simp [ih out2 hl]

/-! ## Claim C3 -/

/-- C3 (amended): for every payload transform and every valid container
whose entry names are pairwise distinct and whose entries all read
successfully, the archive rewriter succeeds and keeps the number and order
of entries, reproduces every metadata field of every entry verbatim (the
whole `ZipInfo` record: compression method, modification timestamp,
internal/external attributes, OS/creation/extraction version fields, volume
identifier, comment and extra-field bytes), leaves the payload of every
entry whose name is not HTML-family unchanged, and changes only the payload
of HTML-family entries (to the transformed bytes).  Without the
distinct-names hypothesis the by-name read returns the last same-named
entry's payload (see the counterexample). -/
theorem process_epub_frame_preservation (t : List Nat → List Nat)
    (entries : List (ZipInfo × Except ZipError (List Nat)))
    (hnodup : (entries.map (fun e => e.1.filename)).Nodup)
    (hok : ∀ e ∈ entries, ∃ d, e.2 = Except.ok d) :
    ∃ out, process_epub t entries = Except.ok out ∧
      out.length = entries.length ∧
      ∀ (i : Nat) (info : ZipInfo) (d : List Nat),
        entries[i]? = some (info, Except.ok d) →
        out[i]? = some (info, if isHtmlFamilyName info.filename then t d else d) := by
  have hok2 : ∀ e ∈ entries, ∃ d, zip_read entries e.1.filename = Except.ok d := by
    intro e he
    obtain ⟨d, hd⟩ := hok e he
    obtain ⟨i, hi⟩ := List.mem_iff_getElem?.mp he
    refine ⟨d, ?_⟩
    rw [zip_read_of_nodup entries hnodup i e.1 e.2 hi]
    exact hd
  obtain ⟨out, hout, hlen, hidx⟩ := process_epub_loop_spec t entries entries hok2
  refine ⟨out, hout, hlen, ?_⟩
  intro i info d h
  have hread : zip_read entries info.filename = Except.ok d :=
    zip_read_of_nodup entries hnodup i info (Except.ok d) h
  have := hidx i info (Except.ok d) h d hread
  rwa [new_info_of_eq] at this

theorem process_epub_frame_preservation_witness :
    ∃ out, process_epub (fun d => 0 :: d) sample_entries = Except.ok out ∧
      out.length = sample_entries.length ∧
      ∀ (i : Nat) (info : ZipInfo) (d : List Nat),
        sample_entries[i]? = some (info, Except.ok d) →
        out[i]? = some (info,
          if isHtmlFamilyName info.filename then (fun d => 0 :: d) d else d) :=
  process_epub_frame_preservation (fun d => 0 :: d) sample_entries (by decide)
    (by
      intro e he
      rcases List.mem_cons.mp he with rfl | he2
      · exact ⟨[1, 2], rfl⟩
      · rcases List.mem_cons.mp he2 with rfl | he3
        · exact ⟨[3], rfl⟩
        · simp at he3)

/-- C3 counterexample: on a valid container with two entries of the same
non-HTML name, `zin.read(info.filename)` resolves through `NameToInfo`
where the last duplicate wins, so the first entry is written with the
second entry's payload — the output is not the input with non-HTML payloads
preserved, refuting the claim as stated for every valid container. -/
theorem process_epub_duplicate_name_counterexample :
    isHtmlFamilyName sample_png_info.filename = false ∧
    process_epub (fun d => d)
        [(sample_png_info, Except.ok [1]), (sample_png_info, Except.ok [2])] =
      Except.ok [(sample_png_info, [2]), (sample_png_info, [2])] ∧
    Except.ok [(sample_png_info, [2]), (sample_png_info, [2])] ≠
      (Except.ok [(sample_png_info, [1]), (sample_png_info, [2])] :
        Except ZipError (List (ZipInfo × List Nat))) := by
  refine ⟨by decide, rfl, ?_⟩
  intro h
  injection h with h1
  injection h1 with h2 _
  injection h2 with _ h3
  exact absurd h3 (by decide)

/-! ## Claim C8 -/

/-- C8 (amended): when the input bytes are not a valid zip structure the
archive rewriter fails with `BadZipFile` (the spec's `InvalidArchive`) and
produces no output; more generally any observable output entry list comes
from a successfully parsed container all of whose by-name entry reads
succeeded, and it is the full rewritten container (one output entry per
container entry) — a failure during parsing or during any per-entry read
(encrypted entry, CRC mismatch) propagates with no partial output
observable.  The zip parsing and per-entry reads happen in the external
`zipfile` library and are represented by their outcomes. -/
theorem process_epub_outcome_atomic (t : List Nat → List Nat)
    (parsed : Except Unit (List (ZipInfo × Except ZipError (List Nat)))) :
    (∀ out, process_epub_outcome t parsed = Except.ok out →
      ∃ entries, parsed = Except.ok entries ∧
        process_epub t entries = Except.ok out ∧ out.length = entries.length) ∧
    (parsed = Except.error () →
      process_epub_outcome t parsed = Except.error ZipError.badZipFile) := by
  constructor
  · intro out hout
    cases parsed with
    | error e =>
      simp only [process_epub_outcome] at hout
      exact Except.noConfusion hout
    | ok entries =>
      have hpe : process_epub t entries = Except.ok out := hout
      exact ⟨entries, rfl, hpe, process_epub_loop_length t entries entries out hpe⟩
  · intro he
    rw [he]
    rfl

theorem process_epub_outcome_atomic_witness :
    (∃ entries,
        (Except.ok [(sample_png_info, Except.ok [7])] :
          Except Unit (List (ZipInfo × Except ZipError (List Nat)))) = Except.ok entries ∧
        process_epub (fun d => d) entries = Except.ok [(sample_png_info, [7])] ∧
        ([(sample_png_info, [7])] : List (ZipInfo × List Nat)).length = entries.length) ∧
    process_epub_outcome (fun d => d)
        (Except.error () : Except Unit (List (ZipInfo × Except ZipError (List Nat)))) =
      Except.error ZipError.badZipFile :=
  ⟨(process_epub_outcome_atomic (fun d => d)
      (Except.ok [(sample_png_info, Except.ok [7])])).1 [(sample_png_info, [7])] rfl,
    (process_epub_outcome_atomic (fun d => d) (Except.error ())).2 rfl⟩

/-- C8 counterexample: a container that parses as a valid zip but holds one
entry whose read raises (an encrypted entry, or a CRC mismatch): the
exception propagates out of the entry loop (src/app.py lines 206-223), so
no output container is produced — refuting the claim's clause that every
valid zip input produces the full rewritten container. -/
theorem process_epub_read_failure_counterexample :
    process_epub_outcome (fun d => d)
        (Except.ok [(sample_png_info, Except.error ZipError.readFailure)]) =
      Except.error ZipError.readFailure ∧
    ∀ out, process_epub_outcome (fun d => d)
        (Except.ok [(sample_png_info, Except.error ZipError.readFailure)]) ≠
      Except.ok out := by
  refine ⟨rfl, ?_⟩
  intro out h
  have h0 : process_epub_outcome (fun d => d)
      (Except.ok [(sample_png_info, Except.error ZipError.readFailure)]) =
      Except.error ZipError.readFailure := rfl
  rw [h0] at h
  exact Except.noConfusion h
